import Mathlib

/-!
Verification of the instruction-to-edit reconciliation pipeline of the
elementor-ui-edit-server repository: a shallow embedding of `src/llm.js`
(`parseEditsFromLLM`, `parseKitPatchFromLLM` and their helpers) and of the
in-memory audit store (`addRequest` / `getRequests`), together with proofs
of the specified properties.

Model-level conventions of the embedding:
  * A JavaScript value that originates from `JSON.parse` (or from the JSON
    request body) is modelled by the inductive type `Json`.  `undefined`
    (an absent property) is modelled by `Option Json` being `none`, while
    an explicit JSON `null` is `some Json.null`.
  * JSON numbers are modelled as exact rationals.  No claim of this
    development compares or stringifies a non-integral number, so the
    double-precision rounding of JavaScript numbers is not modelled.
  * `===` on two object/array values is reference equality in JavaScript;
    every comparison the modelled code performs is between values produced
    by distinct `JSON.parse` calls, so it is modelled as constantly false
    on non-primitive values.
  * Text is modelled as `List Char`.  `String.prototype.trim` and the
    regex class `\s` use the JavaScript whitespace set, reproduced in
    `jsWs` (for the few whitespace code points of these claims).
-/

/-- A JavaScript value produced by `JSON.parse`: null, boolean, number
(exact rational), string, array, or object (field list in insertion
order, keys unique). -/
inductive Json : Type where
  | null : Json
  | bool : Bool → Json
  | num : Rat → Json
  | str : String → Json
  | arr : List Json → Json
  | obj : List (String × Json) → Json
deriving Repr

mutual

/-- Structural equality test on `Json` values. -/
def Json.beq : Json → Json → Bool
  | .null, .null => true
  | .bool x, .bool y => x == y
  | .num x, .num y => x == y
  | .str x, .str y => x == y
  | .arr xs, .arr ys => Json.beqL xs ys
  | .obj xs, .obj ys => Json.beqF xs ys
  | _, _ => false

/-- Structural equality test on `Json` arrays. -/
def Json.beqL : List Json → List Json → Bool
  | [], [] => true
  | x :: xs, y :: ys => Json.beq x y && Json.beqL xs ys
  | _, _ => false

/-- Structural equality test on `Json` field lists. -/
def Json.beqF : List (String × Json) → List (String × Json) → Bool
  | [], [] => true
  | (k, v) :: xs, (l, w) :: ys => k == l && Json.beq v w && Json.beqF xs ys
  | _, _ => false

end

mutual

theorem Json.beq_refl : (a : Json) → Json.beq a a = true
  | .null => rfl
  | .bool x => by simp [Json.beq]
  | .num x => by simp [Json.beq]
  | .str x => by simp [Json.beq]
  | .arr xs => by simp [Json.beq]; exact Json.beqL_refl xs
  | .obj xs => by simp [Json.beq]; exact Json.beqF_refl xs

theorem Json.beqL_refl : (xs : List Json) → Json.beqL xs xs = true
  | [] => rfl
  | x :: xs => by
      simp [Json.beqL]
      exact ⟨Json.beq_refl x, Json.beqL_refl xs⟩

theorem Json.beqF_refl : (xs : List (String × Json)) → Json.beqF xs xs = true
  | [] => rfl
  | (k, v) :: xs => by
      simp [Json.beqF]
      exact ⟨Json.beq_refl v, Json.beqF_refl xs⟩

end

mutual

theorem Json.eq_of_beq : (a b : Json) → Json.beq a b = true → a = b
  | .null, .null, _ => rfl
  | .bool x, .bool y, h => by simp [Json.beq] at h; simp [h]
  | .num x, .num y, h => by simp [Json.beq] at h; simp [h]
  | .str x, .str y, h => by simp [Json.beq] at h; simp [h]
  | .arr xs, .arr ys, h => by
      simp only [Json.beq] at h
      exact congrArg Json.arr (Json.eqL_of_beq xs ys h)
  | .obj xs, .obj ys, h => by
      simp only [Json.beq] at h
      exact congrArg Json.obj (Json.eqF_of_beq xs ys h)
  | .null, .bool _, h => nomatch h
  | .null, .num _, h => nomatch h
  | .null, .str _, h => nomatch h
  | .null, .arr _, h => nomatch h
  | .null, .obj _, h => nomatch h
  | .bool _, .null, h => nomatch h
  | .bool _, .num _, h => nomatch h
  | .bool _, .str _, h => nomatch h
  | .bool _, .arr _, h => nomatch h
  | .bool _, .obj _, h => nomatch h
  | .num _, .null, h => nomatch h
  | .num _, .bool _, h => nomatch h
  | .num _, .str _, h => nomatch h
  | .num _, .arr _, h => nomatch h
  | .num _, .obj _, h => nomatch h
  | .str _, .null, h => nomatch h
  | .str _, .bool _, h => nomatch h
  | .str _, .num _, h => nomatch h
  | .str _, .arr _, h => nomatch h
  | .str _, .obj _, h => nomatch h
  | .arr _, .null, h => nomatch h
  | .arr _, .bool _, h => nomatch h
  | .arr _, .num _, h => nomatch h
  | .arr _, .str _, h => nomatch h
  | .arr _, .obj _, h => nomatch h
  | .obj _, .null, h => nomatch h
  | .obj _, .bool _, h => nomatch h
  | .obj _, .num _, h => nomatch h
  | .obj _, .str _, h => nomatch h
  | .obj _, .arr _, h => nomatch h

theorem Json.eqL_of_beq : (xs ys : List Json) → Json.beqL xs ys = true → xs = ys
  | [], [], _ => rfl
  | x :: xs, y :: ys, h => by
      simp only [Json.beqL, Bool.and_eq_true] at h
      rw [Json.eq_of_beq x y h.1, Json.eqL_of_beq xs ys h.2]
  | [], _ :: _, h => nomatch h
  | _ :: _, [], h => nomatch h

theorem Json.eqF_of_beq : (xs ys : List (String × Json)) → Json.beqF xs ys = true → xs = ys
  | [], [], _ => rfl
  | (k, v) :: xs, (l, w) :: ys, h => by
      simp only [Json.beqF, Bool.and_eq_true, beq_iff_eq] at h
      rw [h.1.1, Json.eq_of_beq v w h.1.2, Json.eqF_of_beq xs ys h.2]
  | [], _ :: _, h => nomatch h
  | _ :: _, [], h => nomatch h

end

instance : DecidableEq Json := fun a b =>
  if h : Json.beq a b = true then .isTrue (Json.eq_of_beq a b h)
  else .isFalse (fun e => h (e ▸ Json.beq_refl a))

/-- JavaScript whitespace (the `\s` class and `String.prototype.trim`):
space, tab, line terminators, form/vertical feed, NBSP, BOM and the
Unicode space separators. -/
def jsWs (c : Char) : Bool :=
  let n := c.toNat
  n = 0x20 || n = 0x9 || n = 0xA || n = 0xD ||
  n = 0xB || n = 0xC || n = 0xA0 || n = 0x1680 ||
  (0x2000 <= n && n <= 0x200A) || n = 0x2028 || n = 0x2029 ||
  n = 0x202F || n = 0x205F || n = 0x3000 || n = 0xFEFF

/-- `String.prototype.trim`: drop JavaScript whitespace from both ends. -/
def jsTrim (l : List Char) : List Char :=
  ((l.dropWhile jsWs).reverse.dropWhile jsWs).reverse

/-- `trim` on a Lean `String`, as JavaScript's `String.prototype.trim`. -/
def jsTrimStr (s : String) : String :=
  (jsTrim s.toList).asString

/-- Property access `v.k` on a JavaScript value: `none` is `undefined`.
Non-object values have none of the properties the modelled code reads. -/
def jsGet (v : Json) (k : String) : Option Json :=
  match v with
  | .obj kvs => (kvs.find? (fun p => p.1 = k)).map (·.2)
  | _ => none

/-- `x != null` (loose inequality): true unless `x` is null or undefined. -/
def nonNull (o : Option Json) : Bool :=
  match o with
  | none => false
  | some .null => false
  | some _ => true

/-- JavaScript truthiness of a parsed JSON value. -/
def jsTruthy (v : Json) : Bool :=
  match v with
  | .null => false
  | .bool b => b
  | .num q => decide (q ≠ 0)
  | .str s => decide (s ≠ "")
  | .arr _ => true
  | .obj _ => true

/-- `===` between two possibly-undefined values.  Primitive values compare
structurally; two object/array values are distinct references everywhere
the modelled code compares them, hence false. -/
def strictEqOpt (a b : Option Json) : Bool :=
  match a, b with
  | none, none => true
  | some (.null), some (.null) => true
  | some (.bool x), some (.bool y) => x = y
  | some (.num x), some (.num y) => x = y
  | some (.str x), some (.str y) => x = y
  | _, _ => false

/-- `v === 's'` for a string literal `s`. -/
def jsStrictEqS (v : Json) (s : String) : Bool :=
  match v with
  | .str t => t = s
  | _ => false

/-- `a ?? b` (nullish coalescing) with both sides possibly undefined. -/
def ncoO (a b : Option Json) : Option Json :=
  match a with
  | none => b
  | some .null => b
  | some v => some v

/-- `a ?? d` where the default `d` is a present value. -/
def nco (a : Option Json) (d : Json) : Json :=
  match a with
  | none => d
  | some .null => d
  | some v => v

/-- `a || b` (logical or) on possibly-undefined values: keeps `a` when it
is present and truthy, otherwise yields `b`. -/
def jsOr (a b : Option Json) : Option Json :=
  match a with
  | some v => if jsTruthy v then some v else b
  | none => b

/-- `caps.includes('s')`: some element is `=== 's'`. -/
def capsIncludes (caps : List Json) (s : String) : Bool :=
  caps.any (fun v => jsStrictEqS v s)

/-- Decimal rendering of an integer, as JavaScript `String(n)` renders a
safe integer. -/
def intDecimal (i : Int) : String :=
  if i < 0 then "-" ++ Nat.repr i.natAbs else Nat.repr i.natAbs

mutual

/-- `String(v)` for a parsed JSON value.  Arrays stringify as
`Array.prototype.join(',')` (null elements become the empty string),
objects as `"[object Object]"`.  The claims of this development only
ever stringify strings, integers, booleans, arrays of such, and null;
non-integral numbers (whose JavaScript rendering depends on double
formatting) are rendered as exact ratios and are unreachable in every
statement below. -/
def jsToString : Json → String
  | .null => "null"
  | .bool b => if b then "true" else "false"
  | .num q => if q.den = 1 then intDecimal q.num
      else intDecimal q.num ++ "/" ++ Nat.repr q.den
  | .str s => s
  | .arr l => String.intercalate "," (jsToStringElems l)
  | .obj _ => "[object Object]"

/-- Elementwise stringification of an array for `join(',')`: null
elements render as the empty string. -/
def jsToStringElems : List Json → List String
  | [] => []
  | .null :: rest => "" :: jsToStringElems rest
  | v :: rest => jsToString v :: jsToStringElems rest

end

/-! ### JSON.parse -/

/-- JSON grammar whitespace: space, tab, line feed, carriage return. -/
def isJWs (c : Char) : Bool :=
  c = ' ' || c = '\t' || c = '\n' || c = '\r'

/-- Skip leading JSON whitespace. -/
def skipJWs (l : List Char) : List Char := l.dropWhile isJWs

/-- Value of a decimal digit character, if it is one. -/
def digVal (c : Char) : Option Nat :=
  if '0' ≤ c ∧ c ≤ '9' then some (c.toNat - 48) else none

/-- Value of a hexadecimal digit character, if it is one. -/
def hexVal (c : Char) : Option Nat :=
  if '0' ≤ c ∧ c ≤ '9' then some (c.toNat - 48)
  else if 'a' ≤ c ∧ c ≤ 'f' then some (c.toNat - 87)
  else if 'A' ≤ c ∧ c ≤ 'F' then some (c.toNat - 55)
  else none

/-- Value of four hexadecimal digits, if all four are ones. -/
def hex4 (a b c d : Char) : Option Nat :=
  match hexVal a, hexVal b, hexVal c, hexVal d with
  | some x, some y, some z, some w => some (((x * 16 + y) * 16 + z) * 16 + w)
  | _, _, _, _ => none

/-- Longest prefix of decimal digits, with the rest of the input. -/
def takeDigits : List Char → (List Nat × List Char)
  | c :: rest =>
    match digVal c with
    | some d =>
      let p := takeDigits rest
      (d :: p.1, p.2)
    | none => ([], c :: rest)
  | [] => ([], [])

/-- Decimal digits to their value. -/
def digitsToNat (ds : List Nat) : Nat := ds.foldl (fun a d => a * 10 + d) 0

/-- One UTF-16 surrogate pair combined to its code point. -/
def combineSurrogates (hi lo : Nat) : Char :=
  Char.ofNat (0x10000 + (hi - 0xD800) * 0x400 + (lo - 0xDC00))

/-- Decode one `\uXXXX` escape value `n`, with the input that follows it:
a high surrogate followed by a low-surrogate escape combines into one code
point; a lone surrogate — which JavaScript keeps as an unpaired UTF-16
code unit, unrepresentable in a Lean `Char` — is modelled as U+FFFD (no
claim below exercises lone surrogates). -/
def decodeUEsc (n : Nat) (r : List Char) : Char × List Char :=
  if 0xD800 ≤ n ∧ n ≤ 0xDBFF then
    match r with
    | '\\' :: 'u' :: g1 :: g2 :: g3 :: g4 :: r2 =>
      (match hex4 g1 g2 g3 g4 with
       | some m =>
         if 0xDC00 ≤ m ∧ m ≤ 0xDFFF then (combineSurrogates n m, r2) else ('\uFFFD', r)
       | none => ('\uFFFD', r))
    | _ => ('\uFFFD', r)
  else if 0xDC00 ≤ n ∧ n ≤ 0xDFFF then ('\uFFFD', r)
  else (Char.ofNat n, r)

/-- JSON string body, fuel-bounded so that it evaluates by kernel
reduction (the fuel is spent one unit per consumed character; callers
pass `length + 1`, always enough since every step consumes at least one
character).  The input starts after the opening quote; the eight escapes
and `\uXXXX` (via `decodeUEsc`) are honoured and raw control characters
rejected, per the JSON grammar. -/
def parseJStr : Nat → List Char → List Char → Option (String × List Char)
  | 0, _, _ => none
  | Nat.succ f, s, acc =>
    match s with
    | '"' :: rest => some (acc.reverse.asString, rest)
    | '\\' :: '"' :: r => parseJStr f r ('"' :: acc)
    | '\\' :: '\\' :: r => parseJStr f r ('\\' :: acc)
    | '\\' :: '/' :: r => parseJStr f r ('/' :: acc)
    | '\\' :: 'b' :: r => parseJStr f r ('\x08' :: acc)
    | '\\' :: 'f' :: r => parseJStr f r ('\x0c' :: acc)
    | '\\' :: 'n' :: r => parseJStr f r ('\n' :: acc)
    | '\\' :: 'r' :: r => parseJStr f r ('\r' :: acc)
    | '\\' :: 't' :: r => parseJStr f r ('\t' :: acc)
    | '\\' :: 'u' :: h1 :: h2 :: h3 :: h4 :: r =>
      (match hex4 h1 h2 h3 h4 with
       | none => none
       | some n =>
         let p := decodeUEsc n r
         parseJStr f p.2 (p.1 :: acc))
    | '\\' :: _ => none
    | c :: rest => if c.toNat < 0x20 then none else parseJStr f rest (c :: acc)
    | [] => none

/-- JSON string body with sufficient fuel. -/
def parseJString (s acc : List Char) : Option (String × List Char) :=
  parseJStr (s.length + 1) s acc

/-- Ten to a natural power, by structural recursion (kernel-reducible). -/
def pow10 : Nat → Nat
  | 0 => 1
  | n + 1 => 10 * pow10 n

/-- JSON number, per the grammar `-? (0 | [1-9][0-9]*) frac? exp?`,
as an exact rational. -/
def parseJNumber (s : List Char) : Option (Rat × List Char) :=
  let sgn : Bool × List Char :=
    match s with
    | '-' :: r => (true, r)
    | _ => (false, s)
  let neg := sgn.1
  let intRes : Option (Nat × List Char) :=
    match sgn.2 with
    | '0' :: r => some (0, r)
    | c :: r =>
      (match digVal c with
       | some d =>
         if d = 0 then none
         else
           let p := takeDigits r
           some (digitsToNat (d :: p.1), p.2)
       | none => none)
    | [] => none
  match intRes with
  | none => none
  | some (ipart, r1) =>
    let fracRes : Option (List Nat × List Char) :=
      match r1 with
      | '.' :: r2 =>
        let p := takeDigits r2
        if p.1.isEmpty then none else some (p.1, p.2)
      | _ => some ([], r1)
    match fracRes with
    | none => none
    | some (fds, r2) =>
      let expRes : Option (Int × List Char) :=
        match r2 with
        | c :: r3 =>
          if c = 'e' ∨ c = 'E' then
            let es : Bool × List Char :=
              match r3 with
              | '+' :: r4 => (false, r4)
              | '-' :: r4 => (true, r4)
              | _ => (false, r3)
            let p := takeDigits es.2
            if p.1.isEmpty then none
            else some ((if es.1 then -(digitsToNat p.1 : Int) else (digitsToNat p.1 : Int)), p.2)
          else some (0, c :: r3)
        | [] => some (0, [])
      match expRes with
      | none => none
      | some (ex, r3) =>
        let fl := fds.length
        let mag : Int := (ipart * pow10 fl + digitsToNat fds : Nat)
        let mant : Int := if neg then -mag else mag
        some (mkRat (mant * ((pow10 ex.toNat : Nat) : Int)) (pow10 (fl + (-ex).toNat)), r3)

/-- Insert a parsed object member: a duplicate key overwrites the earlier
value in place (JavaScript property assignment order semantics). -/
def objUpsert : List (String × Json) → String → Json → List (String × Json)
  | [], k, v => [(k, v)]
  | (k0, v0) :: rest, k, v =>
    if k0 = k then (k0, v) :: rest else (k0, v0) :: objUpsert rest k v

/-- What the recursive-descent JSON reader is reading: one value, the
elements of an array (accumulator reversed), or the members of an object. -/
inductive PMode : Type where
  | value : PMode
  | elems : List Json → PMode
  | members : List (String × Json) → PMode

/-- Fuel-bounded recursive descent over the JSON grammar, one function so
that it is structurally recursive on the fuel and evaluates by kernel
reduction. -/
def parseJ : Nat → PMode → List Char → Option (Json × List Char)
  | 0, _, _ => none
  | Nat.succ f, .value, s =>
    (match s with
     | '{' :: rest =>
       (match skipJWs rest with
        | '}' :: r2 => some (.obj [], r2)
        | r => parseJ f (.members []) r)
     | '[' :: rest =>
       (match skipJWs rest with
        | ']' :: r2 => some (.arr [], r2)
        | r => parseJ f (.elems []) r)
     | '"' :: rest => (parseJString rest []).map (fun p => (.str p.1, p.2))
     | 't' :: rest => if ['r', 'u', 'e'].isPrefixOf rest then some (.bool true, rest.drop 3) else none
     | 'f' :: rest => if ['a', 'l', 's', 'e'].isPrefixOf rest then some (.bool false, rest.drop 4) else none
     | 'n' :: rest => if ['u', 'l', 'l'].isPrefixOf rest then some (.null, rest.drop 3) else none
     | c :: r => if c = '-' ∨ (digVal c).isSome then (parseJNumber (c :: r)).map (fun p => (.num p.1, p.2)) else none
     | [] => none)
  | Nat.succ f, .elems acc, s =>
    (match parseJ f .value s with
     | none => none
     | some (v, r) =>
       (match skipJWs r with
        | ',' :: r2 => parseJ f (.elems (v :: acc)) (skipJWs r2)
        | ']' :: r2 => some (.arr (v :: acc).reverse, r2)
        | _ => none))
  | Nat.succ f, .members acc, s =>
    (match s with
     | '"' :: rest =>
       (match parseJString rest [] with
        | none => none
        | some (k, r) =>
          (match skipJWs r with
           | ':' :: r2 =>
             (match parseJ f .value (skipJWs r2) with
              | none => none
              | some (v, r3) =>
                (match skipJWs r3 with
                 | ',' :: r4 => parseJ f (.members (objUpsert acc k v)) (skipJWs r4)
                 | '}' :: r4 => some (.obj (objUpsert acc k v), r4)
                 | _ => none))
           | _ => none))
     | _ => none)

/-- One JSON value. -/
def parseJValue (fuel : Nat) (s : List Char) : Option (Json × List Char) :=
  parseJ fuel .value s

/-- `JSON.parse`: leading/trailing JSON whitespace allowed, nothing else
after the value.  The fuel `2 * length + 2` dominates the recursion depth
of any input (each unit of fuel is spent on a constructor or separator
already consumed or about to be). -/
def jsonParse (t : List Char) : Option Json :=
  match parseJValue (2 * t.length + 2) (skipJWs t) with
  | some (v, r) => if skipJWs r = [] then some v else none
  | none => none

/-! ### Fence stripping (`/^```(?:json)?\s*([\s\S]*?)```\s*$/`) -/

/-- All characters JavaScript-whitespace. -/
def allWsL (l : List Char) : Bool := l.all jsWs

/-- The lazy capture against `` ([\s\S]*?)``` ``\s*$`: the shortest prefix
whose complement starts with three backticks followed by whitespace only.
Backtracking over the regex's greedy `\s*` cannot move the split (the
skipped characters are whitespace, never a backtick), so the leading
whitespace is kept in the capture here and removed by the caller's
re-trim, as the regex's `\s*` would have. -/
def fenceSplit : List Char → Option (List Char)
  | [] => none
  | c :: cs =>
    if ['`', '`', '`'].isPrefixOf (c :: cs) && allWsL ((c :: cs).drop 3) then some []
    else (fenceSplit cs).map (fun t => c :: t)

/-- The anchored code-fence regex of `parseEditsFromLLM` and
`parseKitPatchFromLLM` applied to trimmed text: `some capture` when the
regex matches.  The optional `json` tag is consumed when present, as the
regex engine prefers; consuming it never turns a match into a failure,
since no three-backtick run can start inside the literal `json`. -/
def stripFence (t : List Char) : Option (List Char) :=
  if ['`', '`', '`'].isPrefixOf t then
    let u := t.drop 3
    if "json".toList.isPrefixOf u then fenceSplit (u.drop 4) else fenceSplit u
  else none

/-- Steps 1 of both normalizers: trim, strip a code fence if present,
re-trim the captured interior. -/
def preprocess (raw : List Char) : List Char :=
  let text := jsTrim raw
  match stripFence text with
  | some cap => jsTrim cap
  | none => text

/-! ### src/llm.js: parseEditsFromLLM and its helpers -/

/-- `typeof v === 'object'` for a value already known non-null (arrays are
objects to `typeof`; the modelled code always pairs this test with a
null/truthiness check, so `null` may map to false here). -/
def typeofObj (v : Json) : Bool :=
  match v with
  | .arr _ => true
  | .obj _ => true
  | _ => false

/-- `String(x)` where `x` may be undefined. -/
def jsToStringOpt (o : Option Json) : String :=
  match o with
  | none => "undefined"
  | some v => jsToString v

/-- `hasEditPayload(item)`: some recognized payload field is non-null. -/
def hasEditPayload (item : Json) : Bool :=
  nonNull (jsGet item "new_text") ||
  nonNull (jsGet item "new_url") ||
  nonNull (jsGet item "new_link") ||
  nonNull (jsGet item "new_image_url") ||
  nonNull (jsGet item "new_attachment_id") ||
  nonNull (jsGet item "new_image")

/-- `resolveIdPath(item, dictionary, image_slots)`: find the first
dictionary entry whose `path` or `id` is `===` the item's, then the first
image slot likewise; take the item's own field, else the found source's,
else the empty string. -/
def resolveIdPath (item : Json) (dictionary image_slots : List Json) : Json × Json :=
  let fromDict := dictionary.find? (fun d =>
    strictEqOpt (jsGet d "path") (jsGet item "path") ||
    strictEqOpt (jsGet d "id") (jsGet item "id"))
  let fromSlots := image_slots.find? (fun s =>
    strictEqOpt (jsGet s "path") (jsGet item "path") ||
    strictEqOpt (jsGet s "id") (jsGet item "id"))
  let source := jsOr fromDict fromSlots
  (nco (ncoO (jsGet item "id") (source.bind (fun s => jsGet s "id"))) (.str ""),
   nco (ncoO (jsGet item "path") (source.bind (fun s => jsGet s "path"))) (.str ""))

/-- One edit record as built by `parseEditsFromLLM`'s `.map` callback
(before and after capability filtering): resolved `id`/`path`, and the
payload fields, each `none` when the corresponding key is absent. -/
structure JEdit where
  id : Json
  path : Json
  new_text : Option String := none
  field : Option Json := none
  item_index : Option Json := none
  new_url : Option Json := none
  new_link : Option Json := none
  new_image_url : Option Json := none
  new_attachment_id : Option Json := none
  new_image : Option Json := none
deriving DecidableEq, Repr

/-- The body of `parseEditsFromLLM`'s `.map` before `filterByCapabilities`:
resolve `id`/`path` and copy the non-null payload fields, `new_text`
coerced to a string (with `field`/`item_index` only alongside it). -/
def buildEdit (item : Json) (dictionary slots : List Json) : JEdit :=
  let ip := resolveIdPath item dictionary slots
  { id := ip.1
    path := ip.2
    new_text :=
      if nonNull (jsGet item "new_text") then some (jsToStringOpt (jsGet item "new_text")) else none
    field :=
      if nonNull (jsGet item "new_text") && nonNull (jsGet item "field")
      then jsGet item "field" else none
    item_index :=
      if nonNull (jsGet item "new_text") && nonNull (jsGet item "item_index")
      then jsGet item "item_index" else none
    new_url := if nonNull (jsGet item "new_url") then jsGet item "new_url" else none
    new_link := if nonNull (jsGet item "new_link") then jsGet item "new_link" else none
    new_image_url := if nonNull (jsGet item "new_image_url") then jsGet item "new_image_url" else none
    new_attachment_id :=
      if nonNull (jsGet item "new_attachment_id") then jsGet item "new_attachment_id" else none
    new_image := if nonNull (jsGet item "new_image") then jsGet item "new_image" else none }

/-- `x != null` on a stored payload field (present fields are never null
when produced by `buildEdit`, but the test mirrors the code's). -/
def optNonNull (o : Option Json) : Bool :=
  match o with
  | none => false
  | some .null => false
  | some _ => true

/-- The record `filterByCapabilities` builds before its payload check:
`id`/`path` copied; `new_text` (with `field`, `item_index`) only under
the `text` capability, `new_url`/`new_link` under `url`, the three image
fields under `image`. -/
def capsOut (edit : JEdit) (edit_capabilities : List Json) : JEdit :=
  let hasText := capsIncludes edit_capabilities "text" && edit.new_text.isSome
  { id := edit.id
    path := edit.path
    new_text := if hasText then edit.new_text else none
    field := if hasText && optNonNull edit.field then edit.field else none
    item_index := if hasText && optNonNull edit.item_index then edit.item_index else none
    new_url :=
      if capsIncludes edit_capabilities "url" && optNonNull edit.new_url
      then edit.new_url else none
    new_link :=
      if capsIncludes edit_capabilities "url" && optNonNull edit.new_link
      then edit.new_link else none
    new_image_url :=
      if capsIncludes edit_capabilities "image" && optNonNull edit.new_image_url
      then edit.new_image_url else none
    new_attachment_id :=
      if capsIncludes edit_capabilities "image" && optNonNull edit.new_attachment_id
      then edit.new_attachment_id else none
    new_image :=
      if capsIncludes edit_capabilities "image" && optNonNull edit.new_image
      then edit.new_image else none }

/-- The final payload check of `filterByCapabilities`
(`'new_text' in out || 'new_url' in out || ...`). -/
def hasOutPayload (e : JEdit) : Bool :=
  e.new_text.isSome || e.new_url.isSome || e.new_link.isSome ||
  e.new_image_url.isSome || e.new_attachment_id.isSome || e.new_image.isSome

/-- `filterByCapabilities(edit, edit_capabilities)`: build the
capability-gated record and return it, or null (`none`) when no payload
field survived. -/
def filterByCapabilities (edit : JEdit) (edit_capabilities : List Json) : Option JEdit :=
  if hasOutPayload (capsOut edit edit_capabilities)
  then some (capsOut edit edit_capabilities) else none

/-- The first `.filter` of `parseEditsFromLLM`: the element is truthy,
carries a non-null `id` or `path`, and has an edit payload. -/
def prefilterEdit (item : Json) : Bool :=
  jsTruthy item && (nonNull (jsGet item "id") || nonNull (jsGet item "path")) && hasEditPayload item

/-- The last `.filter` of `parseEditsFromLLM`: `e.id !== '' || e.path !== ''`. -/
def postKeep (e : JEdit) : Bool :=
  !(jsStrictEqS e.id "") || !(jsStrictEqS e.path "")

/-- `image_slots` as used: `Array.isArray(image_slots) ? image_slots : []`. -/
def slotsOf (image_slots : Json) : List Json :=
  match image_slots with
  | .arr l => l
  | _ => []

/-- `edit_capabilities` as used:
`Array.isArray(edit_capabilities) ? edit_capabilities : ['text']`. -/
def capsOf (edit_capabilities : Json) : List Json :=
  match edit_capabilities with
  | .arr l => l
  | _ => [.str "text"]

/-- `parseEditsFromLLM(raw, dictionary, image_slots, edit_capabilities)`:
trim and fence-strip the raw text, parse it as JSON, require an array,
then filter/map/filter exactly as the source chain does.  `Except.error`
models the thrown `Error('Invalid LLM response')`. -/
def parseEditsFromLLM (raw : List Char) (dictionary : List Json)
    (image_slots edit_capabilities : Json) : Except String (List JEdit) :=
  let text := preprocess raw
  match jsonParse text with
  | none => .error "Invalid LLM response"
  | some v =>
    match v with
    | .arr items =>
      let slots := slotsOf image_slots
      let caps := capsOf edit_capabilities
      .ok ((((items.filter prefilterEdit).map
              (fun item => filterByCapabilities (buildEdit item dictionary slots) caps)).filterMap id).filter postKeep)
    | _ => .error "Invalid LLM response"

/-! ### src/llm.js: parseKitPatchFromLLM -/

/-- One color of the kit patch output: `_id` and `title` coerced to
strings (`title` defaulting to empty), `value` trimmed when the model
supplied a string, otherwise `String()`-coerced (empty for null). -/
structure KColor where
  _id : String
  title : String
  value : String
deriving DecidableEq, Repr

/-- One typography entry of the kit patch output: coerced `_id`, `title`
copied (coerced) only when non-null, and the `typography_`-prefixed
fields in input order with null values dropped. -/
structure KTypo where
  _id : String
  title : Option String
  extra : List (String × Json)
deriving DecidableEq, Repr

/-- The kit patch: each key present exactly when the source assigns it. -/
structure KitPatch where
  colors : Option (List KColor)
  typography : Option (List KTypo)
  settings : Option Json
deriving DecidableEq, Repr

/-- The element filter of the colors branch:
`c && typeof c === 'object' && c._id != null`. -/
def colorPre (c : Json) : Bool :=
  jsTruthy c && typeofObj c && nonNull (jsGet c "_id")

/-- The `.map` of the colors branch. -/
def colorMap (c : Json) : KColor :=
  { _id := jsToStringOpt (jsGet c "_id")
    title :=
      match jsGet c "title" with
      | none => ""
      | some .null => ""
      | some v => jsToString v
    value :=
      match jsGet c "value" with
      | some (.str s) => jsTrimStr s
      | some .null => ""
      | some v => jsToString v
      | none => "" }

/-- The colors key of the kit patch: assigned only when the input's
`colors` is a non-empty array (before element filtering); elements with
empty coerced `value` are dropped afterwards. -/
def kitColorsOf (v : Json) : Option (List KColor) :=
  match jsGet v "colors" with
  | some (.arr cs) =>
    if cs.length > 0
    then some (((cs.filter colorPre).map colorMap).filter (fun c => !(c.value = "")))
    else none
  | _ => none

/-- The element filter of the typography branch. -/
def typoPre (t : Json) : Bool :=
  jsTruthy t && typeofObj t && nonNull (jsGet t "_id")

/-- The own fields of an object, in insertion order (`Object.keys`); a
non-object has no own string-keyed fields the modelled loop would copy. -/
def objFields (v : Json) : List (String × Json) :=
  match v with
  | .obj kvs => kvs
  | _ => []

/-- The `.map` of the typography branch: keep `_id`, `title` when
non-null, and every `typography_`-prefixed key with a non-null value. -/
def typoMap (t : Json) : KTypo :=
  { _id := jsToStringOpt (jsGet t "_id")
    title :=
      match jsGet t "title" with
      | none => none
      | some .null => none
      | some v => some (jsToString v)
    extra := (objFields t).filter (fun kv =>
      kv.1 ≠ "_id" && kv.1 ≠ "title" && "typography_".isPrefixOf kv.1 && kv.2 ≠ Json.null) }

/-- `Object.keys(out).length > 1`: the entry kept more than its `_id`. -/
def typoKeep (t : KTypo) : Bool :=
  t.title.isSome || !t.extra.isEmpty

/-- The typography key of the kit patch: assigned only when the input's
`typography` is a non-empty array (before element filtering). -/
def kitTypographyOf (v : Json) : Option (List KTypo) :=
  match jsGet v "typography" with
  | some (.arr ts) =>
    if ts.length > 0
    then some (((ts.filter typoPre).map typoMap).filter typoKeep)
    else none
  | _ => none

/-- The settings key: passed through verbatim when
`obj.settings != null && typeof obj.settings === 'object'`. -/
def kitSettingsOf (v : Json) : Option Json :=
  match jsGet v "settings" with
  | some s => if typeofObj s then some s else none
  | none => none

/-- The kit patch built from the parsed top-level value. -/
def kitPatchOf (v : Json) : KitPatch :=
  { colors := kitColorsOf v
    typography := kitTypographyOf v
    settings := kitSettingsOf v }

/-- `obj == null || typeof obj !== 'object'`, negated: the parsed value
passes the kit normalizer's shape check.  `typeof` calls a JSON array an
object, so arrays pass. -/
def kitShapeOk (v : Json) : Bool :=
  match v with
  | .arr _ => true
  | .obj _ => true
  | _ => false

/-- `parseKitPatchFromLLM(raw)`: trim and fence-strip, parse as JSON,
reject null and primitives (`Except.error` models the thrown
`Error('Invalid LLM response for kit')`), then build the patch. -/
def parseKitPatchFromLLM (raw : List Char) : Except String KitPatch :=
  let text := preprocess raw
  match jsonParse text with
  | none => .error "Invalid LLM response for kit"
  | some v =>
    if kitShapeOk v then .ok (kitPatchOf v)
    else .error "Invalid LLM response for kit"

/-! ### src/store.js: the audit ring buffer -/

/-- One stored record of `addRequest` (the timestamp is the value
`new Date().toISOString()` produced at insertion time, passed in here as
the environment's clock reading). -/
structure AuditRecord where
  id : String
  timestamp : String
  body : Json
  response : Json
  contextType : String
deriving DecidableEq, Repr

/-- `MAX_REQUESTS`. -/
def MAX_REQUESTS : Nat := 50

/-- `addRequest(id, body, response, contextType)` acting on the module's
`requests` array (state passed explicitly): build the record with
`contextType === 'kit' ? 'kit' : 'page'`, `unshift` it, and `pop` the
last record when the length exceeds the capacity. -/
def addRequest (requests : List AuditRecord) (id timestamp : String)
    (body response : Json) (contextType : Json) : List AuditRecord :=
  let record : AuditRecord :=
    { id := id
      timestamp := timestamp
      body := body
      response := response
      contextType := if jsStrictEqS contextType "kit" then "kit" else "page" }
  let requests := record :: requests
  if requests.length > MAX_REQUESTS then requests.dropLast else requests

/-- `getRequests()`: `[...requests]` — a fresh array with the same
records; in this pure model the snapshot is the list itself. -/
def getRequests (requests : List AuditRecord) : List AuditRecord :=
  requests

/-! ### The per-element view of parseEditsFromLLM's chain -/

/-- The fate of one parsed array element in `parseEditsFromLLM`: `none`
when any of the three filters discards it, `some` its record otherwise. -/
def editsItem (dictionary slots caps : List Json) (item : Json) : Option JEdit :=
  if prefilterEdit item then
    (filterByCapabilities (buildEdit item dictionary slots) caps).bind
      (fun e => if postKeep e then some e else none)
  else none

theorem filter_filterMap_filter {α β : Type} (p : α → Bool) (f : α → Option β) (q : β → Bool) :
    ∀ l : List α,
      ((l.filter p).filterMap f).filter q
        = l.filterMap (fun x => if p x then (f x).bind (fun e => if q e then some e else none) else none)
  | [] => rfl
  | x :: xs => by
    by_cases hp : p x
    · simp only [List.filter_cons, hp, if_true, List.filterMap_cons]
      cases hf : f x with
      | none => simp [filter_filterMap_filter p f q xs]
      | some e =>
        by_cases hq : q e
        · simp [List.filter_cons, hq, filter_filterMap_filter p f q xs]
        · simp [List.filter_cons, hq, filter_filterMap_filter p f q xs]
    · simp [List.filter_cons, hp, filter_filterMap_filter p f q xs]

theorem editsChain (dictionary slots caps : List Json) (items : List Json) :
    (((items.filter prefilterEdit).map
        (fun item => filterByCapabilities (buildEdit item dictionary slots) caps)).filterMap id).filter postKeep
      = items.filterMap (editsItem dictionary slots caps) := by
  rw [List.filterMap_map]
  exact filter_filterMap_filter prefilterEdit
    (fun item => filterByCapabilities (buildEdit item dictionary slots) caps) postKeep items

/-- A record `filterByCapabilities` returns carries a payload field. -/
theorem filterByCapabilities_payload (edit : JEdit) (caps : List Json) (e : JEdit)
    (h : filterByCapabilities edit caps = some e) : hasOutPayload e = true := by
  unfold filterByCapabilities at h
  split at h
  · injection h with h'
    subst h'
    assumption
  · exact Option.noConfusion h

/-- Claim C1: for raw text parsing to a JSON array, `parseEditsFromLLM`
returns exactly one record per element surviving the three filters
(`editsItem`), in order, and every returned record has an `id` or `path`
that is not the empty string and carries at least one payload field. -/
theorem parseEdits_records_wellformed
    (raw : List Char) (dictionary : List Json) (image_slots edit_capabilities : Json)
    (items : List Json) (l : List JEdit)
    (hparse : jsonParse (preprocess raw) = some (.arr items))
    (hok : parseEditsFromLLM raw dictionary image_slots edit_capabilities = .ok l) :
    l = items.filterMap (editsItem dictionary (slotsOf image_slots) (capsOf edit_capabilities)) ∧
    ∀ e ∈ l, (jsStrictEqS e.id "" = false ∨ jsStrictEqS e.path "" = false) ∧
      hasOutPayload e = true := by
  unfold parseEditsFromLLM at hok
  simp only [hparse, Except.ok.injEq] at hok
  subst hok
  refine ⟨editsChain _ _ _ _, ?_⟩
  intro e he
  have hkeep := List.of_mem_filter he
  have hmem := List.mem_of_mem_filter he
  constructor
  · unfold postKeep at hkeep
    rcases Bool.or_eq_true_iff.mp hkeep with h | h
    · exact Or.inl (by simpa using h)
    · exact Or.inr (by simpa using h)
  · rcases List.mem_filterMap.mp hmem with ⟨o, ho, hoe⟩
    rcases List.mem_map.mp ho with ⟨item, _, hoi⟩
    subst hoi
    exact filterByCapabilities_payload _ _ _ hoe

theorem parseEdits_records_wellformed_witness :
    [(⟨Json.str "w1", Json.str "", some "hello", none, none, none, none, none, none, none⟩ : JEdit)] =
      [Json.obj [("id", Json.str "w1"), ("new_text", Json.str "hello")]].filterMap
        (editsItem [] (slotsOf (Json.arr [])) (capsOf (Json.arr [Json.str "text"]))) ∧
    ∀ e ∈ [(⟨Json.str "w1", Json.str "", some "hello", none, none, none, none, none, none, none⟩ : JEdit)],
      (jsStrictEqS e.id "" = false ∨ jsStrictEqS e.path "" = false) ∧ hasOutPayload e = true :=
  parseEdits_records_wellformed
    "[\x7b\"id\":\"w1\",\"new_text\":\"hello\"\x7d]".toList [] (Json.arr []) (Json.arr [Json.str "text"])
    [Json.obj [("id", Json.str "w1"), ("new_text", Json.str "hello")]]
    [⟨Json.str "w1", Json.str "", some "hello", none, none, none, none, none, none, none⟩]
    (by rfl) (by rfl)

/-- Under capability list `['text']` a record that survives
`filterByCapabilities` carries `new_text`. -/
theorem filterByCapabilities_textOnly (edit : JEdit) (e : JEdit)
    (h : filterByCapabilities edit [Json.str "text"] = some e) :
    e.new_text.isSome = true := by
  unfold filterByCapabilities at h
  split at h
  case isTrue hc =>
    injection h with h'
    subst h'
    unfold hasOutPayload capsOut at hc
    simp only [capsIncludes, jsStrictEqS, List.any_cons, List.any_nil] at hc
    unfold capsOut
    simp only [capsIncludes, jsStrictEqS, List.any_cons, List.any_nil]
    simpa using hc
  case isFalse => exact Option.noConfusion h

/-- Claim C4: with requested capability set exactly `["text"]`, an element
carrying `new_url` but no `new_text` is dropped entirely (it contributes
no record), and every record the normalizer does return under `["text"]`
carries a `new_text` payload. -/
theorem textOnly_drops_url_only_elements :
    (∀ (dictionary slots : List Json) (item : Json),
        nonNull (jsGet item "new_url") = true →
        nonNull (jsGet item "new_text") = false →
        editsItem dictionary slots [Json.str "text"] item = none) ∧
    (∀ (raw : List Char) (dictionary : List Json) (image_slots : Json) (l : List JEdit),
        parseEditsFromLLM raw dictionary image_slots (Json.arr [Json.str "text"]) = .ok l →
        ∀ e ∈ l, e.new_text.isSome = true) := by
  constructor
  · intro dictionary slots item _ hnt
    unfold editsItem
    by_cases hp : prefilterEdit item
    · have h1 : (buildEdit item dictionary slots).new_text = none := by
        simp [buildEdit, hnt]
      have h2 : filterByCapabilities (buildEdit item dictionary slots) [Json.str "text"] = none := by
        unfold filterByCapabilities
        have hout : hasOutPayload (capsOut (buildEdit item dictionary slots) [Json.str "text"]) = false := by
          unfold hasOutPayload capsOut
          simp [h1, capsIncludes, jsStrictEqS]
        simp [hout]
      simp [hp, h2]
    · simp [hp]
  · intro raw dictionary image_slots l hok e he
    unfold parseEditsFromLLM at hok
    cases hjp : jsonParse (preprocess raw) with
    | none => simp [hjp] at hok
    | some v =>
      cases v with
      | arr items =>
        simp only [hjp, Except.ok.injEq] at hok
        subst hok
        have hmem := List.mem_of_mem_filter he
        rcases List.mem_filterMap.mp hmem with ⟨o, ho, hoe⟩
        rcases List.mem_map.mp ho with ⟨item, _, hoi⟩
        subst hoi
        simp only [id] at hoe
        exact filterByCapabilities_textOnly _ _ hoe
      | null => simp [hjp] at hok
      | bool b => simp [hjp] at hok
      | num q => simp [hjp] at hok
      | str t => simp [hjp] at hok
      | obj kvs => simp [hjp] at hok

/-- Claim C8: the raw texts `"not json"` (unparseable) and `"42"` (a JSON
number, the wrong top-level shape) fail with the invalid-response error in
both normalizers, whatever the other arguments. -/
theorem malformed_and_number_raws_fail (dictionary : List Json) (image_slots edit_capabilities : Json) :
    parseEditsFromLLM "not json".toList dictionary image_slots edit_capabilities
        = .error "Invalid LLM response" ∧
    parseEditsFromLLM "42".toList dictionary image_slots edit_capabilities
        = .error "Invalid LLM response" ∧
    parseKitPatchFromLLM "not json".toList = .error "Invalid LLM response for kit" ∧
    parseKitPatchFromLLM "42".toList = .error "Invalid LLM response for kit" :=
  ⟨rfl, rfl, rfl, rfl⟩

/-! ### Claim C6: fenced and bare JSON normalize identically -/

/-- The fence-wrapped form of a text: three backticks, the `json` tag, a
newline, the text, a newline and three closing backticks. -/
def wrapJson (s : List Char) : List Char :=
  '`' :: '`' :: '`' :: 'j' :: 's' :: 'o' :: 'n' :: '\n' :: (s ++ ['\n', '`', '`', '`'])

theorem dropWhile_id_of_head {p : Char → Bool} (l : List Char)
    (h : ∀ c, l.head? = some c → p c = false) : l.dropWhile p = l := by
  cases l with
  | nil => rfl
  | cons a t =>
    rw [List.dropWhile_cons, h a rfl]
    simp

theorem jsTrim_cons_of_ws (c : Char) (l : List Char) (h : jsWs c = true) :
    jsTrim (c :: l) = jsTrim l := by
  simp [jsTrim, List.dropWhile_cons, h]

theorem jsTrim_append_of_ws (l : List Char) (c : Char) (h : jsWs c = true) :
    jsTrim (l ++ [c]) = jsTrim l := by
  unfold jsTrim
  rw [List.dropWhile_append]
  split
  case isTrue he =>
    have h0 : l.dropWhile jsWs = [] := List.isEmpty_iff.mp he
    simp [h0, List.dropWhile_cons, h]
  case isFalse he =>
    simp [List.reverse_append, List.dropWhile_cons, h]

theorem jsTrim_wrap (s : List Char) : jsTrim (wrapJson s) = wrapJson s := by
  have hform : wrapJson s
      = ('`' :: '`' :: '`' :: 'j' :: 's' :: 'o' :: 'n' :: '\n' :: (s ++ ['\n', '`', '`'])) ++ ['`'] := by
    simp [wrapJson]
  unfold jsTrim
  rw [dropWhile_id_of_head (wrapJson s) (fun c hc => by
    rw [wrapJson] at hc
    simp only [List.head?_cons, Option.some.injEq] at hc
    rw [← hc]
    decide)]
  rw [dropWhile_id_of_head ((wrapJson s).reverse) (fun c hc => by
    rw [List.head?_reverse, hform, List.getLast?_concat] at hc
    simp only [Option.some.injEq] at hc
    rw [← hc]
    decide)]
  exact List.reverse_reverse _

/-- All-whitespace fails on any list holding a backtick. -/
theorem allWsL_false_of_backtick (l : List Char) (h : '`' ∈ l) : allWsL l = false := by
  unfold allWsL
  cases hb : l.all jsWs with
  | false => rfl
  | true => exact absurd (List.all_eq_true.mp hb '`' h) (by decide)

/-- The lazy fence capture takes everything up to the closing fence: no
earlier three-backtick run can be followed by whitespace only, because the
closing backticks follow it. -/
theorem fenceSplit_append (w : List Char) :
    fenceSplit (w ++ ['\n', '`', '`', '`']) = some (w ++ ['\n']) := by
  induction w with
  | nil => rfl
  | cons c w ih =>
    have hmem : '`' ∈ ((c :: (w ++ ['\n', '`', '`', '`'])).drop 3) := by
      have hsplit : ((c :: w) ++ ['\n', '`', '`', '`']).drop 3
          = (c :: w).drop 3 ++ List.drop (3 - (c :: w).length) ['\n', '`', '`', '`'] :=
        List.drop_append_eq_append_drop
      have hk : 3 - (c :: w).length ≤ 3 := Nat.sub_le _ _
      have hmem2 : '`' ∈ List.drop (3 - (c :: w).length) ['\n', '`', '`', '`'] := by
        set k := 3 - (c :: w).length with hkdef
        interval_cases k <;> decide
      rw [List.cons_append] at hsplit
      rw [hsplit]
      exact List.mem_append_right _ hmem2
    have hcond : (['`', '`', '`'].isPrefixOf (c :: (w ++ ['\n', '`', '`', '`'])) &&
        allWsL ((c :: (w ++ ['\n', '`', '`', '`'])).drop 3)) = false := by
      rw [allWsL_false_of_backtick _ hmem, Bool.and_false]
    show fenceSplit (c :: (w ++ ['\n', '`', '`', '`'])) = some (c :: (w ++ ['\n']))
    rw [fenceSplit, hcond]
    simp [ih]

theorem stripFence_wrap (s : List Char) :
    stripFence (wrapJson s) = some ('\n' :: (s ++ ['\n'])) := by
  show fenceSplit ('\n' :: (s ++ ['\n', '`', '`', '`'])) = some ('\n' :: (s ++ ['\n']))
  have h := fenceSplit_append ('\n' :: s)
  simpa using h

/-- `JSON.parse` fails on text whose first character is a backtick. -/
theorem jsonParse_backtick (rest : List Char) : jsonParse ('`' :: rest) = none := rfl

/-- A text that parses as JSON does not begin with a code fence. -/
theorem stripFence_none_of_parse (s : List Char) (v : Json)
    (h : jsonParse (jsTrim s) = some v) : stripFence (jsTrim s) = none := by
  unfold stripFence
  cases ht : jsTrim s with
  | nil => simp [List.isPrefixOf]
  | cons c rest =>
    by_cases hc : c = '`'
    · subst hc
      rw [ht, jsonParse_backtick] at h
      exact Option.noConfusion h
    · have hpf : (['`', '`', '`'].isPrefixOf (c :: rest)) = false := by
        rw [List.isPrefixOf_cons₂]
        have : ('`' == c) = false := beq_eq_false_iff_ne.mpr (Ne.symm hc)
        simp [this]
      simp [hpf]

theorem preprocess_wrap (s : List Char) (hs : stripFence (jsTrim s) = none) :
    preprocess (wrapJson s) = preprocess s := by
  unfold preprocess
  dsimp only
  rw [jsTrim_wrap, stripFence_wrap, hs]
  dsimp only
  rw [jsTrim_cons_of_ws _ _ (by decide), jsTrim_append_of_ws _ _ (by decide)]

/-- Claim C6: for every JSON text `s` (its trimmed form parses), the
fence-wrapped form and the bare form preprocess to the same text — the
anchored fence strip followed by re-trimming recovers the interior — so
both the edit normalizer and the kit normalizer give identical results on
the two forms. -/
theorem fenced_and_bare_agree (s : List Char) (dictionary : List Json)
    (image_slots edit_capabilities : Json)
    (h : (jsonParse (jsTrim s)).isSome = true) :
    preprocess (wrapJson s) = preprocess s ∧
    parseEditsFromLLM (wrapJson s) dictionary image_slots edit_capabilities =
      parseEditsFromLLM s dictionary image_slots edit_capabilities ∧
    parseKitPatchFromLLM (wrapJson s) = parseKitPatchFromLLM s := by
  obtain ⟨v, hv⟩ := Option.isSome_iff_exists.mp h
  have hnone := stripFence_none_of_parse s v hv
  have hp := preprocess_wrap s hnone
  refine ⟨hp, ?_, ?_⟩
  · unfold parseEditsFromLLM
    rw [hp]
  · unfold parseKitPatchFromLLM
    rw [hp]

theorem fenced_and_bare_agree_witness :
    preprocess (wrapJson "[\"a\"]".toList) = preprocess "[\"a\"]".toList ∧
    parseEditsFromLLM (wrapJson "[\"a\"]".toList) [] (Json.arr []) (Json.arr []) =
      parseEditsFromLLM "[\"a\"]".toList [] (Json.arr []) (Json.arr []) ∧
    parseKitPatchFromLLM (wrapJson "[\"a\"]".toList) = parseKitPatchFromLLM "[\"a\"]".toList :=
  fenced_and_bare_agree "[\"a\"]".toList [] (Json.arr []) (Json.arr []) (by rfl)

/-! ### Claim C5: the identifier resolver -/

theorem find?_congr_on {α : Type} (l : List α) (p q : α → Bool)
    (h : ∀ x ∈ l, p x = q x) : l.find? p = l.find? q := by
  induction l with
  | nil => rfl
  | cons a t ih =>
    have ha := h a (List.mem_cons_self a t)
    have ih' := ih (fun x hx => h x (List.mem_cons_of_mem a hx))
    rw [List.find?_cons, List.find?_cons, ha, ih']

theorem jsTruthy_of_jsGet (d : Json) (k : String) (v : Json)
    (h : jsGet d k = some v) : jsTruthy d = true := by
  cases d with
  | obj kvs => rfl
  | null => exact absurd h (by simp [jsGet])
  | bool b => exact absurd h (by simp [jsGet])
  | num q => exact absurd h (by simp [jsGet])
  | str t => exact absurd h (by simp [jsGet])
  | arr l => exact absurd h (by simp [jsGet])

/-- Claim C5: for a candidate with exactly one of `id`/`path` present (as
a string), when every dictionary entry and image slot carries string `id`
and `path` fields, the resolver takes the first dictionary entry matching
on the candidate's present field, else the first image slot, else the
empty string for the missing field — the present field always copied
through. -/
theorem resolveIdPath_first_match
    (dictionary image_slots : List Json) (idF pathF : Json → String)
    (hd : ∀ d ∈ dictionary,
        jsGet d "id" = some (.str (idF d)) ∧ jsGet d "path" = some (.str (pathF d)))
    (hs : ∀ t ∈ image_slots,
        jsGet t "id" = some (.str (idF t)) ∧ jsGet t "path" = some (.str (pathF t))) :
    (∀ (item : Json) (p : String), jsGet item "id" = none → jsGet item "path" = some (.str p) →
      resolveIdPath item dictionary image_slots =
        (match dictionary.find? (fun d => pathF d == p) with
         | some d => (Json.str (idF d), Json.str p)
         | none =>
           (match image_slots.find? (fun t => pathF t == p) with
            | some t => (Json.str (idF t), Json.str p)
            | none => (Json.str "", Json.str p)))) ∧
    (∀ (item : Json) (i : String), jsGet item "path" = none → jsGet item "id" = some (.str i) →
      resolveIdPath item dictionary image_slots =
        (match dictionary.find? (fun d => idF d == i) with
         | some d => (Json.str i, Json.str (pathF d))
         | none =>
           (match image_slots.find? (fun t => idF t == i) with
            | some t => (Json.str i, Json.str (pathF t))
            | none => (Json.str i, Json.str "")))) := by
  constructor
  · intro item p hid hpath
    unfold resolveIdPath
    have hdict : dictionary.find? (fun d =>
        strictEqOpt (jsGet d "path") (jsGet item "path") ||
        strictEqOpt (jsGet d "id") (jsGet item "id"))
        = dictionary.find? (fun d => pathF d == p) := by
      apply find?_congr_on
      intro d hdm
      rw [(hd d hdm).1, (hd d hdm).2, hid, hpath]
      by_cases he : pathF d = p <;> simp [strictEqOpt, he]
    have hslot : image_slots.find? (fun t =>
        strictEqOpt (jsGet t "path") (jsGet item "path") ||
        strictEqOpt (jsGet t "id") (jsGet item "id"))
        = image_slots.find? (fun t => pathF t == p) := by
      apply find?_congr_on
      intro t htm
      rw [(hs t htm).1, (hs t htm).2, hid, hpath]
      by_cases he : pathF t = p <;> simp [strictEqOpt, he]
    rw [hdict, hslot]
    cases hfd : dictionary.find? (fun d => pathF d == p) with
    | some d =>
      have hdm := List.mem_of_find?_eq_some hfd
      have htr := jsTruthy_of_jsGet d "id" _ (hd d hdm).1
      simp [jsOr, htr, ncoO, nco, hid, hpath, (hd d hdm).1]
    | none =>
      cases hfs : image_slots.find? (fun t => pathF t == p) with
      | some t =>
        have htm := List.mem_of_find?_eq_some hfs
        have htr := jsTruthy_of_jsGet t "id" _ (hs t htm).1
        simp [jsOr, htr, ncoO, nco, hid, hpath, (hs t htm).1]
      | none =>
        simp [jsOr, ncoO, nco, hid, hpath]
  · intro item i hpath hid
    unfold resolveIdPath
    have hdict : dictionary.find? (fun d =>
        strictEqOpt (jsGet d "path") (jsGet item "path") ||
        strictEqOpt (jsGet d "id") (jsGet item "id"))
        = dictionary.find? (fun d => idF d == i) := by
      apply find?_congr_on
      intro d hdm
      rw [(hd d hdm).1, (hd d hdm).2, hid, hpath]
      by_cases he : idF d = i <;> simp [strictEqOpt, he]
    have hslot : image_slots.find? (fun t =>
        strictEqOpt (jsGet t "path") (jsGet item "path") ||
        strictEqOpt (jsGet t "id") (jsGet item "id"))
        = image_slots.find? (fun t => idF t == i) := by
      apply find?_congr_on
      intro t htm
      rw [(hs t htm).1, (hs t htm).2, hid, hpath]
      by_cases he : idF t = i <;> simp [strictEqOpt, he]
    rw [hdict, hslot]
    cases hfd : dictionary.find? (fun d => idF d == i) with
    | some d =>
      have hdm := List.mem_of_find?_eq_some hfd
      have htr := jsTruthy_of_jsGet d "id" _ (hd d hdm).1
      simp [jsOr, htr, ncoO, nco, hid, hpath, (hd d hdm).2]
    | none =>
      cases hfs : image_slots.find? (fun t => idF t == i) with
      | some t =>
        have htm := List.mem_of_find?_eq_some hfs
        have htr := jsTruthy_of_jsGet t "id" _ (hs t htm).1
        simp [jsOr, htr, ncoO, nco, hid, hpath, (hs t htm).2]
      | none =>
        simp [jsOr, ncoO, nco, hid, hpath]

/-- The string value of a field, used to instantiate the resolver theorem
at concrete collections. -/
def getStrField (v : Json) (k : String) : String :=
  match jsGet v k with
  | some (.str s) => s
  | _ => ""

/-- The dictionary of the specification's resolver example. -/
def c5dict : List Json :=
  [Json.obj [("id", Json.str "a"), ("path", Json.str "/a"),
             ("widget_type", Json.str "t"), ("text", Json.str "")]]

theorem resolveIdPath_first_match_witness :
    resolveIdPath (Json.obj [("path", Json.str "/a"), ("new_text", Json.str "Hi")]) c5dict [] =
      (match c5dict.find? (fun d => getStrField d "path" == "/a") with
       | some d => (Json.str (getStrField d "id"), Json.str "/a")
       | none =>
         (match ([] : List Json).find? (fun t => getStrField t "path" == "/a") with
          | some t => (Json.str (getStrField t "id"), Json.str "/a")
          | none => (Json.str "", Json.str "/a"))) ∧
    resolveIdPath (Json.obj [("path", Json.str "/a"), ("new_text", Json.str "Hi")]) c5dict []
      = (Json.str "a", Json.str "/a") ∧
    parseEditsFromLLM "[\x7b\"path\":\"/a\",\"new_text\":\"Hi\"\x7d]".toList c5dict
        (Json.arr []) (Json.arr [Json.str "text"])
      = .ok [⟨Json.str "a", Json.str "/a", some "Hi", none, none, none, none, none, none, none⟩] :=
  ⟨(resolveIdPath_first_match c5dict [] (fun d => getStrField d "id")
      (fun d => getStrField d "path") (by decide) (by decide)).1
      (Json.obj [("path", Json.str "/a"), ("new_text", Json.str "Hi")]) "/a" rfl rfl,
   by decide, rfl⟩

/-! ### Claims C2, C3, C7: the kit patch normalizer -/

/-- Claim C2 (amended): the kit normalizer fails exactly when the JSON
parse of the preprocessed text fails or yields null or a primitive
(number, string, boolean); a JSON array passes the `typeof` shape check
(arrays are objects to `typeof`) and yields a patch. -/
theorem kit_error_iff (raw : List Char) :
    parseKitPatchFromLLM raw = .error "Invalid LLM response for kit" ↔
      (jsonParse (preprocess raw) = none ∨
        ∃ v, jsonParse (preprocess raw) = some v ∧ kitShapeOk v = false) := by
  unfold parseKitPatchFromLLM
  dsimp only
  cases h : jsonParse (preprocess raw) with
  | none => simp
  | some v =>
    by_cases hs : kitShapeOk v <;> simp [hs]

/-- Claim C2 counterexample: the raw text `"[]"` parses to a JSON array,
yet the kit normalizer returns the empty patch instead of failing. -/
theorem kit_array_input_not_rejected :
    parseKitPatchFromLLM "[]".toList = .ok ⟨none, none, none⟩ ∧
    parseKitPatchFromLLM "[]".toList ≠ .error "Invalid LLM response for kit" :=
  ⟨rfl, by
    intro h
    rw [show parseKitPatchFromLLM "[]".toList = Except.ok (⟨none, none, none⟩ : KitPatch) from rfl] at h
    exact Except.noConfusion h⟩

/-- Claim C3 (amended): on `'{"typography":[{"_id":"x"}]}'` the sole
typography entry (no key beyond `_id`) is dropped, but the `typography`
key remains present as an empty array — presence is decided on the raw
input array before element filtering. -/
theorem kit_typography_soleId_key_present :
    parseKitPatchFromLLM "\x7b\"typography\":[\x7b\"_id\":\"x\"\x7d]\x7d".toList
      = .ok ⟨none, some [], none⟩ := rfl

/-- Claim C3 counterexample: the result is not the empty patch `{}` — the
`typography` key is present (as an empty array), not omitted. -/
theorem kit_typography_soleId_not_empty_patch :
    parseKitPatchFromLLM "\x7b\"typography\":[\x7b\"_id\":\"x\"\x7d]\x7d".toList
      = .ok ⟨none, some [], none⟩ ∧
    (⟨none, some [], none⟩ : KitPatch) ≠ ⟨none, none, none⟩ :=
  ⟨rfl, by decide⟩

/-- Claim C7 (amended): the `colors` key is emitted iff the input's
`colors` value is a non-empty array (presence decided before element
filtering); every emitted color has a non-empty value; the value is
trimmed exactly when the model supplied it as a string (a non-string
value is `String()`-coerced without trimming); and the specification's
example holds. -/
theorem kit_colors_spec :
    (∀ v : Json, (kitColorsOf v).isSome = true ↔
        ∃ cs, jsGet v "colors" = some (.arr cs) ∧ cs ≠ []) ∧
    (∀ (v : Json) (cs : List KColor), kitColorsOf v = some cs → ∀ c ∈ cs, c.value ≠ "") ∧
    (∀ (c0 : Json) (s : String), jsGet c0 "value" = some (.str s) →
        (colorMap c0).value = jsTrimStr s) ∧
    parseKitPatchFromLLM "\x7b\"colors\":[\x7b\"_id\":\"primary\",\"value\":\"  #112233  \"\x7d]\x7d".toList
      = .ok ⟨some [⟨"primary", "", "#112233"⟩], none, none⟩ := by
  refine ⟨?_, ?_, ?_, rfl⟩
  · intro v
    unfold kitColorsOf
    cases hg : jsGet v "colors" with
    | none => simp
    | some w =>
      cases w with
      | arr cs =>
        by_cases hl : cs.length > 0
        · have hne : cs ≠ [] := List.ne_nil_of_length_pos hl
          simp only [hl, if_true, Option.isSome_some, Option.some.injEq, Json.arr.injEq]
          exact iff_of_true trivial ⟨cs, rfl, hne⟩
        · have h0 : cs = [] := List.length_eq_zero.mp (Nat.eq_zero_of_not_pos hl)
          subst h0
          simp
      | null => simp
      | bool b => simp
      | num q => simp
      | str t => simp
      | obj kvs => simp
  · intro v cs hcs c hc
    unfold kitColorsOf at hcs
    cases hg : jsGet v "colors" with
    | none =>
      rw [hg] at hcs
      exact Option.noConfusion hcs
    | some w =>
      rw [hg] at hcs
      cases w with
      | arr l =>
        dsimp only at hcs
        split at hcs
        · injection hcs with h'
          subst h'
          have := List.of_mem_filter hc
          simpa using this
        · exact Option.noConfusion hcs
      | null => exact Option.noConfusion hcs
      | bool b => exact Option.noConfusion hcs
      | num q => exact Option.noConfusion hcs
      | str t => exact Option.noConfusion hcs
      | obj kvs => exact Option.noConfusion hcs
  · intro c0 s hval
    simp [colorMap, hval]

/-- Claim C7 counterexample: a color whose `value` is a non-string (an
array) is `String()`-coerced without trimming — the emitted value
`" x "` is non-empty but not a trimmed string. -/
theorem kit_colors_nonstring_value_untrimmed :
    parseKitPatchFromLLM "\x7b\"colors\":[\x7b\"_id\":\"a\",\"value\":[\" x \"]\x7d]\x7d".toList
      = .ok ⟨some [⟨"a", "", " x "⟩], none, none⟩ ∧
    jsTrimStr " x " ≠ " x " :=
  ⟨rfl, by decide⟩

/-! ### Claims C9, C10: the audit ring buffer -/

/-- `addRequest` in closed form: the new record goes to the front, and
when the buffer would exceed capacity the last (oldest) record drops. -/
theorem addRequest_cases (st : List AuditRecord) (id ts : String) (b r c0 : Json) :
    addRequest st id ts b r c0
      = (if st.length + 1 > MAX_REQUESTS
         then (⟨id, ts, b, r, if jsStrictEqS c0 "kit" then "kit" else "page"⟩ : AuditRecord)
                :: st.dropLast
         else ⟨id, ts, b, r, if jsStrictEqS c0 "kit" then "kit" else "page"⟩ :: st) := by
  unfold addRequest
  dsimp only
  generalize (⟨id, ts, b, r, if jsStrictEqS c0 "kit" then "kit" else "page"⟩ : AuditRecord) = rec0
  simp only [List.length_cons]
  split
  case isTrue hgt =>
    rw [List.dropLast_cons_of_ne_nil]
    intro h0
    subst h0
    simp only [List.length_nil, MAX_REQUESTS] at hgt
    omega
  case isFalse => rfl

set_option maxRecDepth 8000 in
/-- Claim C9: `addRequest` inserts at the front (newest first); the buffer
never exceeds 50; below capacity nothing is evicted; at capacity the
record at the back (the oldest) is evicted; inserting 60 records into an
empty buffer leaves exactly the newest 50, newest first, the oldest 10
evicted; and `getRequests` returns a snapshot equal to the buffer's
contents (the JavaScript `[...requests]` copy, rendered functionally —
mutating the fresh array cannot reach the module's own array). -/
theorem audit_ring_buffer_spec :
    (∀ (st : List AuditRecord) (id ts : String) (b r c0 : Json),
        (addRequest st id ts b r c0).head?
          = some ⟨id, ts, b, r, if jsStrictEqS c0 "kit" then "kit" else "page"⟩) ∧
    (∀ (st : List AuditRecord) (id ts : String) (b r c0 : Json),
        st.length ≤ MAX_REQUESTS → (addRequest st id ts b r c0).length ≤ MAX_REQUESTS) ∧
    (∀ (st : List AuditRecord) (id ts : String) (b r c0 : Json),
        st.length < MAX_REQUESTS →
        addRequest st id ts b r c0
          = ⟨id, ts, b, r, if jsStrictEqS c0 "kit" then "kit" else "page"⟩ :: st) ∧
    (∀ (st : List AuditRecord) (id ts : String) (b r c0 : Json),
        st.length = MAX_REQUESTS →
        addRequest st id ts b r c0
          = ⟨id, ts, b, r, if jsStrictEqS c0 "kit" then "kit" else "page"⟩ :: st.dropLast) ∧
    ((List.range 60).foldl
        (fun st n => addRequest st (Nat.repr n) "" Json.null Json.null (Json.str "page")) []
      = ((List.range 60).drop 10).reverse.map
          (fun n => ⟨Nat.repr n, "", Json.null, Json.null, "page"⟩)) ∧
    (∀ st : List AuditRecord, getRequests st = st) := by
  refine ⟨?_, ?_, ?_, ?_, by decide, fun _ => rfl⟩
  · intro st id ts b r c0
    rw [addRequest_cases]
    split <;> rfl
  · intro st id ts b r c0 hle
    rw [addRequest_cases]
    simp only [MAX_REQUESTS] at hle ⊢
    split
    case isTrue =>
      simp only [List.length_cons, List.length_dropLast]
      omega
    case isFalse hng =>
      simp only [List.length_cons]
      omega
  · intro st id ts b r c0 hlt
    rw [addRequest_cases, if_neg]
    simp only [MAX_REQUESTS] at hlt ⊢
    omega
  · intro st id ts b r c0 heq
    rw [addRequest_cases, if_pos]
    simp only [MAX_REQUESTS] at heq ⊢
    omega

/-- Membership after one `addRequest`: an old record or one whose
normalized context type is `kit` or `page`. -/
theorem addRequest_contextType_mem (st : List AuditRecord) (id ts : String)
    (b r c0 : Json) (rec : AuditRecord) (h : rec ∈ addRequest st id ts b r c0) :
    rec ∈ st ∨ rec.contextType = "kit" ∨ rec.contextType = "page" := by
  rw [addRequest_cases] at h
  generalize hcx : (if jsStrictEqS c0 "kit" then "kit" else "page") = cx at h
  split at h
  · rcases List.mem_cons.mp h with h3 | h3
    · subst h3
      subst hcx
      by_cases hc : jsStrictEqS c0 "kit" <;> simp [hc]
    · exact Or.inl (List.mem_of_mem_dropLast h3)
  · rcases List.mem_cons.mp h with h3 | h3
    · subst h3
      subst hcx
      by_cases hc : jsStrictEqS c0 "kit" <;> simp [hc]
    · exact Or.inl h3

/-- Claim C10 (implicit): after any sequence of `addRequest` calls with
arbitrary `contextType` arguments, every stored record's `contextType` is
either `'kit'` or `'page'` — any argument other than the exact string
`'kit'` is stored as `'page'`. -/
theorem audit_contextType_closed
    (ops : List (String × String × Json × Json × Json)) (rec : AuditRecord)
    (h : rec ∈ ops.foldl
        (fun st op => addRequest st op.1 op.2.1 op.2.2.1 op.2.2.2.1 op.2.2.2.2) []) :
    rec.contextType = "kit" ∨ rec.contextType = "page" := by
  suffices hgen : ∀ st : List AuditRecord,
      (∀ x ∈ st, x.contextType = "kit" ∨ x.contextType = "page") →
      ∀ x ∈ ops.foldl
          (fun st op => addRequest st op.1 op.2.1 op.2.2.1 op.2.2.2.1 op.2.2.2.2) st,
        x.contextType = "kit" ∨ x.contextType = "page" by
    exact hgen [] (by simp) rec h
  clear h
  induction ops with
  | nil =>
    intro st hst x hx
    exact hst x hx
  | cons op rest ih =>
    intro st hst x hx
    refine ih (addRequest st op.1 op.2.1 op.2.2.1 op.2.2.2.1 op.2.2.2.2) ?_ x hx
    intro y hy
    rcases addRequest_contextType_mem _ _ _ _ _ _ y hy with h1 | h2
    · exact hst y h1
    · exact h2

theorem audit_contextType_closed_witness :
    (⟨"1", "t", Json.null, Json.null, "page"⟩ : AuditRecord).contextType = "kit" ∨
    (⟨"1", "t", Json.null, Json.null, "page"⟩ : AuditRecord).contextType = "page" :=
  audit_contextType_closed [("1", "t", Json.null, Json.null, Json.str "weird")]
    ⟨"1", "t", Json.null, Json.null, "page"⟩ (by decide)
